import Mathlib

/-!
Verification of the BibTeX parser in `src/bibtex-parser.js`.

The JavaScript strings are modelled as `List Char`.  Each definition below is a
shallow embedding of the corresponding piece of the source file:

* `stripPercentComments`  — `bibtexString.replace(/%[^\n]*/g, "")` (parse, line 18)
* `stripHashLines`        — `.replace(/^[ \t]*#[^\n]*/gm, "")` (parse, line 20)
* `scanHeaders`           — the `entryStartRegex = /@(\w+)\{([^,]+),/g` exec loop (lines 23-36)
* `scanClose`             — the brace-counting loop (lines 41-53)
* `mkFieldsString`        — `cleanedString.substring(start.afterComma, i - 1)` (line 57)
* `matchField`/`scanFields` — the `fieldRegex` exec loop of `parseFields` (lines 75-90)
* `parseFields`           — the `fields` object built by that loop
* `parse`                 — `BibtexParser.parse` (lines 14-70)
* `formatAuthors`         — `BibtexParser.formatAuthors` (lines 95-109)
-/

set_option maxRecDepth 8000

namespace Bibtex

/-- JavaScript strings are modelled as lists of characters. -/
abbrev Str := List Char

/-- The white-space characters of the JavaScript regex class `\s` (and of
`String.prototype.trim`).  We model the ASCII ones; the extra Unicode space
code points of `\s` play no role in any claim. -/
def isSpaceJS (c : Char) : Bool :=
  c == ' ' || c == '\t' || c == '\n' || c == '\r' || c == '\x0b' || c == '\x0c'

/-- The JavaScript regex class `\w`: ASCII letters, digits and underscore. -/
def isWordChar (c : Char) : Bool :=
  c.isAlpha || c.isDigit || c == '_'

/-- `String.prototype.trim`: drop leading and trailing white space. -/
def trimStr (s : Str) : Str :=
  ((s.dropWhile isSpaceJS).reverse.dropWhile isSpaceJS).reverse

/-- `String.prototype.toLowerCase`, on the ASCII identifiers it is applied to. -/
def lowerStr (s : Str) : Str := s.map Char.toLower

/-! ### Comment stripping (parse, lines 17-20) -/

/-- One left-to-right pass of `replace(/%[^\n]*/g, "")`: in copy mode (`false`)
a `%` switches to skip mode; skip mode drops characters up to (excluding) the
next newline. -/
def stripPercentAux : Bool → Str → Str
  | _, [] => []
  | true, c :: rest =>
    if c == '\n' then c :: stripPercentAux false rest else stripPercentAux true rest
  | false, c :: rest =>
    if c == '%' then stripPercentAux true rest else c :: stripPercentAux false rest

/-- `bibtexString.replace(/%[^\n]*/g, "")`. -/
def stripPercentComments (s : Str) : Str := stripPercentAux false s

/-- Split at newlines (the line structure seen by the `m` flag of the second
replace); the newlines themselves are reinserted by `joinLines`. -/
def splitLines : Str → List Str
  | [] => [[]]
  | c :: rest =>
    if c == '\n' then [] :: splitLines rest
    else
      match splitLines rest with
      | [] => [[c]]
      | l :: ls => (c :: l) :: ls

def joinLines : List Str → Str
  | [] => []
  | [l] => l
  | l₁ :: l₂ :: ls => l₁ ++ '\n' :: joinLines (l₂ :: ls)

/-- Does `^[ \t]*#` match at the start of this line? -/
def lineStartsWithHash (line : Str) : Bool :=
  match line.dropWhile (fun c => c == ' ' || c == '\t') with
  | '#' :: _ => true
  | _ => false

/-- `.replace(/^[ \t]*#[^\n]*/gm, "")`: a line whose first non-blank character
is `#` loses its entire content (the newline separators stay). -/
def stripHashLines (s : Str) : Str :=
  joinLines ((splitLines s).map (fun l => if lineStartsWithHash l then [] else l))

/-- `cleanedString` of `parse` (lines 18-20): both replaces, in source order. -/
def cleanInput (s : Str) : Str := stripHashLines (stripPercentComments s)

/-! ### Entry-header scan (parse, lines 23-36) -/

/-- Attempt to match `(\w+)\{([^,]+),` directly after an `@`.  Returns the
type, the raw key text (everything up to the first comma) and the suffix after
that comma (the position `start.afterComma`). -/
def matchHeaderAfterAt (rest : Str) : Option (Str × Str × Str) :=
  let ty := rest.takeWhile isWordChar
  let r2 := rest.dropWhile isWordChar
  if ty.isEmpty then none else
  match r2 with
  | '{' :: r3 =>
    let key := r3.takeWhile (fun c => !(c == ','))
    let r4 := r3.dropWhile (fun c => !(c == ','))
    if key.isEmpty then none else
    match r4 with
    | ',' :: r5 => some (ty, key, r5)
    | _ => none
  | _ => none

/-- The `entryStartRegex.exec` loop.  The `Nat` argument models the regex
`lastIndex`: after a successful match the scan resumes at the suffix after the
matched comma, i.e. `rest.length - after.length` characters further on. -/
def scanHeadersAux : Nat → Str → List (Str × Str × Str)
  | _ + 1, [] => []
  | k + 1, _ :: rest => scanHeadersAux k rest
  | 0, [] => []
  | 0, c :: rest =>
    if c == '@' then
      match matchHeaderAfterAt rest with
      | some (ty, key, after) =>
        (ty, key, after) :: scanHeadersAux (rest.length - after.length) rest
      | none => scanHeadersAux 0 rest
    else scanHeadersAux 0 rest

/-- All matches of `@(\w+)\{([^,]+),`, in document order. -/
def scanHeaders (s : Str) : List (Str × Str × Str) := scanHeadersAux 0 s

/-! ### Brace counting (parse, lines 39-57) -/

/-- The `while (i < length && braceCount > 0)` loop: starting at the given
depth, the number of characters consumed until the depth returns to `0`
(the closing brace included), or `none` if the input ends first. -/
def scanClose : Nat → Str → Option Nat
  | _, [] => none
  | depth, c :: rest =>
    let d := if c == '{' then depth + 1 else if c == '}' then depth - 1 else depth
    if d == 0 then some 1
    else
      match scanClose d rest with
      | some n => some (n + 1)
      | none => none

/-- For a header with raw key `rawKey` and post-comma suffix `rest`:
run the brace counter from the opening brace of the header (depth 1 over
`rawKey ++ "," ++ rest`) and, if it closes, take
`substring(start.afterComma, i - 1)` — the JavaScript `substring` swaps its
arguments when the first exceeds the second. -/
def mkFieldsString (rawKey rest : Str) : Option Str :=
  let body := rawKey ++ ',' :: rest
  match scanClose 1 body with
  | none => none
  | some k =>
    let p := rawKey.length + 1
    let q := k - 1
    some ((body.drop (min p q)).take (max p q - min p q))

/-! ### Field decoding (parseFields, lines 75-90) -/

/-- The value pattern of the first alternative `([^{}]*(?:\{[^{}]*\}[^{}]*)*)\}`,
entered just after the opening brace.  `inner = true` means we are inside a
one-level nested `{...}` group.  Returns the captured value (closing brace
excluded) and the suffix after the closing brace. -/
def braceValue : Bool → Str → Option (Str × Str)
  | _, [] => none
  | inner, c :: rest =>
    if c == '}' then
      if inner then
        match braceValue false rest with
        | some (v, r) => some ('}' :: v, r)
        | none => none
      else some ([], rest)
    else if c == '{' then
      if inner then none
      else
        match braceValue true rest with
        | some (v, r) => some ('{' :: v, r)
        | none => none
    else
      match braceValue inner rest with
      | some (v, r) => some (c :: v, r)
      | none => none

/-- The value pattern of the second alternative `([^"]*)"`, entered just after the
opening quote: everything up to the next `"`. -/
def quoteValue : Str → Option (Str × Str)
  | [] => none
  | c :: rest =>
    if c == '"' then some ([], rest)
    else
      match quoteValue rest with
      | some (v, r) => some (c :: v, r)
      | none => none

/-- The value class of the third alternative `[^,\s]`. -/
def isBareChar (c : Char) : Bool := !(c == ',') && !(isSpaceJS c)

/-- The value of the third alternative `([^,\s]+)`. -/
def bareValue (s : Str) : Option (Str × Str) :=
  let v := s.takeWhile isBareChar
  if v.isEmpty then none else some (v, s.dropWhile isBareChar)

/-- One attempt of `fieldRegex` at the current position: the three alternatives
share the prefix `(\w+)\s*=\s*` and are tried in order (brace, quote, bare).
Returns the name, the raw captured value and the suffix after the match. -/
def matchField (s : Str) : Option (Str × Str × Str) :=
  let name := s.takeWhile isWordChar
  let s1 := s.dropWhile isWordChar
  if name.isEmpty then none else
  match s1.dropWhile isSpaceJS with
  | '=' :: s3 =>
    let s4 := s3.dropWhile isSpaceJS
    match s4 with
    | '{' :: s5 =>
      match braceValue false s5 with
      | some (v, r) => some (name, v, r)
      | none =>
        match bareValue s4 with
        | some (v, r) => some (name, v, r)
        | none => none
    | '"' :: s5 =>
      match quoteValue s5 with
      | some (v, r) => some (name, v, r)
      | none =>
        match bareValue s4 with
        | some (v, r) => some (name, v, r)
        | none => none
    | _ =>
      match bareValue s4 with
      | some (v, r) => some (name, v, r)
      | none => none
  | _ => none

/-- The `fieldRegex.exec` loop over an entry body; the `Nat` argument models
the regex `lastIndex` exactly as in `scanHeadersAux`. -/
def scanFieldsAux : Nat → Str → List (Str × Str)
  | _ + 1, [] => []
  | k + 1, _ :: rest => scanFieldsAux k rest
  | 0, [] => []
  | 0, c :: rest =>
    match matchField (c :: rest) with
    | some (n, v, r) => (n, v) :: scanFieldsAux (rest.length - r.length) rest
    | none => scanFieldsAux 0 rest

/-- All `fieldRegex` matches of an entry body, in order. -/
def scanFields (s : Str) : List (Str × Str) := scanFieldsAux 0 s

/-- JavaScript object update `fields[name] = value`: overwrite in place, else
append (insertion order preserved, keys unique). -/
def setKey : List (Str × Str) → Str → Str → List (Str × Str)
  | [], k, v => [(k, v)]
  | (k', v') :: rest, k, v =>
    if k' = k then (k, v) :: rest else (k', v') :: setKey rest k v

/-- Lines 82-86: `fieldValue = match[2] || match[4] || match[6]` is `undefined`
when the captured value is the empty string (empty strings are falsy), in which
case nothing is stored; otherwise `fields[name.toLowerCase()] = value.trim()`. -/
def applyMatch (m : List (Str × Str)) (nv : Str × Str) : List (Str × Str) :=
  if nv.2.isEmpty then m else setKey m (lowerStr nv.1) (trimStr nv.2)

/-- `BibtexParser.parseFields`. -/
def parseFields (body : Str) : List (Str × Str) :=
  (scanFields body).foldl applyMatch []

/-- Lookup in the fields object. -/
def getField : List (Str × Str) → Str → Option Str
  | [], _ => none
  | (k, v) :: rest, n => if k = n then some v else getField rest n

/-! ### Entries and `parse` (lines 14-70) -/

/-- The record pushed on line 59-63. -/
structure Entry where
  type : Str
  key : Str
  fields : List (Str × Str)
deriving DecidableEq

/-- Lines 39-66 for a single collected start: if the brace count returns to
zero the entry is built (type lowercased, key trimmed, fields decoded),
otherwise nothing is pushed. -/
def mkEntry (ty rawKey rest : Str) : Option Entry :=
  (mkFieldsString rawKey rest).map
    (fun fs => ⟨lowerStr ty, trimStr rawKey, parseFields fs⟩)

/-- Line 28: headers whose type is (case-insensitively) `"string"` are not
collected into `entryStarts`. -/
def isRealHeader (h : Str × Str × Str) : Bool :=
  !(lowerStr h.1 == ("string").toList)

/-- `BibtexParser.parse`. -/
def parse (input : Str) : List Entry :=
  ((scanHeaders (cleanInput input)).filter isRealHeader).filterMap
    (fun h => mkEntry h.1 h.2.1 h.2.2)

/-! ### `formatAuthors` (lines 95-109) -/

/-- The literal separator `" and "`. -/
def sepStr : Str := ' ' :: 'a' :: 'n' :: 'd' :: ' ' :: []

/-- `authors.split(" and ")`: successive leftmost occurrences of the separator
cut the string.  The `Nat` argument skips the tail of a just-matched separator. -/
def splitAndAux : Nat → Str → List Str
  | _ + 1, [] => [[]]
  | k + 1, _ :: rest => splitAndAux k rest
  | 0, [] => [[]]
  | 0, c :: rest =>
    if sepStr.isPrefixOf (c :: rest) then [] :: splitAndAux 4 rest
    else
      match splitAndAux 0 rest with
      | [] => [[c]]
      | p :: ps => (c :: p) :: ps

def splitAnd (s : Str) : List Str := splitAndAux 0 s

/-- `BibtexParser.formatAuthors`: empty input returns "" (the `!authors`
guard); otherwise split on `" and "`, trim each name, and format by count. -/
def formatAuthors (authors : Str) : Str :=
  if authors.isEmpty then []
  else
    match (splitAnd authors).map trimStr with
    | [a] => a
    | [a, b] => a ++ sepStr ++ b
    | a :: b :: _ :: _ =>
      a ++ (',' :: ' ' :: []) ++ b ++
        (',' :: ' ' :: 'e' :: 't' :: ' ' :: 'a' :: 'l' :: '.' :: [])
    | [] => authors

/-! ### Spec-side definitions -/

/-- Does the delimiter depth of this header return to zero before the input
ends?  (Spec §4.1: the running depth counter starting at 1 at the opening brace of the
header.) -/
def headerBalanced (h : Str × Str × Str) : Bool :=
  (scanClose 1 (h.2.1 ++ ',' :: h.2.2)).isSome

/-- The headers of the document whose type is not (case-insensitively)
`string` and whose braces balance — the entries §8 of the spec counts. -/
def realBalancedHeaders (doc : Str) : List (Str × Str × Str) :=
  (scanHeaders (cleanInput doc)).filter (fun h => isRealHeader h && headerBalanced h)

/-- The entry a balanced header decodes to. -/
def entryOf (h : Str × Str × Str) : Entry :=
  ⟨lowerStr h.1, trimStr h.2.1, parseFields ((mkFieldsString h.2.1 h.2.2).getD [])⟩

/-- Spec §4.2 "last occurrence wins": the trimmed value of the last assignment
in the match list whose lowercased name is `n` and whose raw value is
non-empty. -/
def lastNonEmptyValue (ms : List (Str × Str)) (n : Str) : Option Str :=
  ms.foldl
    (fun acc m =>
      if (lowerStr m.1 == n) && !(m.2.isEmpty) then some (trimStr m.2) else acc)
    none

/-! ### Characterization of `parse` -/

theorem mkEntry_eq (ty k r : Str) :
    mkEntry ty k r =
      if headerBalanced (ty, k, r) then some (entryOf (ty, k, r)) else none := by
  unfold mkEntry entryOf headerBalanced mkFieldsString
  cases h : scanClose 1 (k ++ ',' :: r) <;> simp [h]

theorem filterMap_eq_map_filter {α β : Type} (f : α → Option β) (p : α → Bool)
    (g : α → β) (hf : ∀ x, f x = if p x then some (g x) else none) :
    ∀ l : List α, l.filterMap f = (l.filter p).map g := by
  intro l
  induction l with
  | nil => simp
  | cons a l ih =>
    rw [List.filterMap_cons, List.filter_cons, hf a]
    cases hpa : p a <;> simp [ih]

theorem filter_filter_and {α : Type} (p q : α → Bool) (l : List α) :
    (l.filter p).filter q = l.filter (fun a => p a && q a) := by
  induction l with
  | nil => rfl
  | cons a l ih =>
    cases hp : p a <;> cases hq : q a <;> simp [List.filter_cons, hp, hq, ih]

/-- Every collected non-`string` header whose brace count closes contributes
exactly its decoded entry; the others contribute nothing. -/
theorem parse_eq (doc : Str) :
    parse doc = (realBalancedHeaders doc).map entryOf := by
  unfold parse realBalancedHeaders
  rw [← filter_filter_and]
  exact filterMap_eq_map_filter _ headerBalanced entryOf
    (fun h => by obtain ⟨ty, k, r⟩ := h; exact mkEntry_eq ty k r) _

/-- C1: for every input document, the number of Entry records returned by
`parse` equals the number of `@type{key,` headers whose type is not
(case-insensitively) `string` and whose delimiter depth returns to zero
before the input ends; skipped `@string` headers never contribute an entry. -/
theorem parse_length_eq_realBalancedHeaders (doc : Str) :
    (parse doc).length = (realBalancedHeaders doc).length := by
  rw [parse_eq, List.length_map]

/-- C2: for every input document, a header whose delimiter depth never returns
to zero is dropped, every other collected header whose braces balance (and
whose type is not `string`) is still returned with its fields decoded, in
document order; `parse` is a total function, so parsing never aborts. -/
theorem parse_drops_only_unbalanced (doc : Str) :
    parse doc =
      ((scanHeaders (cleanInput doc)).filter
          (fun h => isRealHeader h && headerBalanced h)).map entryOf :=
  parse_eq doc

/-- C10: duplicate citation keys are all kept: the returned entries carry,
in document order, one (key, fields) pair per balanced non-`string` header —
occurrences are never merged, deduplicated or overwritten. -/
theorem parse_keeps_duplicate_keys (doc : Str) :
    (parse doc).map (fun e => (e.key, e.fields)) =
      (realBalancedHeaders doc).map
        (fun h => (trimStr h.2.1, parseFields ((mkFieldsString h.2.1 h.2.2).getD []))) := by
  rw [parse_eq, List.map_map]
  rfl

/-! ### Comment stripping facts (claim C3) -/

theorem stripPercentAux_not_mem : ∀ (b : Bool) (s : Str), '%' ∉ stripPercentAux b s := by
  intro b s
  induction s generalizing b with
  | nil => cases b <;> simp [stripPercentAux]
  | cons c rest ih =>
    cases b with
    | true =>
      rw [stripPercentAux]
      by_cases hc : c == '\n'
      · rw [if_pos hc]
        intro hm
        rcases List.mem_cons.mp hm with h | h
        · rw [← h] at hc
          exact absurd hc (by decide)
        · exact ih false h
      · rw [if_neg hc]
        exact ih true
    | false =>
      rw [stripPercentAux]
      by_cases hc : c == '%'
      · rw [if_pos hc]
        exact ih true
      · rw [if_neg hc]
        intro hm
        rcases List.mem_cons.mp hm with h | h
        · rw [← h] at hc
          exact hc (by decide)
        · exact ih false h

theorem mem_splitLines : ∀ (s l : Str), l ∈ splitLines s → ∀ c ∈ l, c ∈ s := by
  intro s
  induction s with
  | nil =>
    intro l hl c hc
    simp [splitLines] at hl
    subst hl
    cases hc
  | cons a rest ih =>
    intro l hl c hc
    rw [splitLines] at hl
    by_cases ha : a == '\n'
    · rw [if_pos ha] at hl
      rcases List.mem_cons.mp hl with h | h
      · subst h; cases hc
      · exact List.mem_cons_of_mem a (ih l h c hc)
    · rw [if_neg ha] at hl
      cases hr : splitLines rest with
      | nil =>
        rw [hr] at hl
        simp at hl
        subst hl
        rcases List.mem_cons.mp hc with h | h
        · rw [h]; exact List.mem_cons_self a rest
        · cases h
      | cons l₀ ls =>
        rw [hr] at hl
        rcases List.mem_cons.mp hl with h | h
        · subst h
          rcases List.mem_cons.mp hc with h | h
          · rw [h]; exact List.mem_cons_self a rest
          · exact List.mem_cons_of_mem a (ih l₀ (hr ▸ List.mem_cons_self l₀ ls) c h)
        · exact List.mem_cons_of_mem a (ih l (hr ▸ List.mem_cons_of_mem l₀ h) c hc)

theorem mem_joinLines : ∀ (ls : List Str) (c : Char),
    c ∈ joinLines ls → c = '\n' ∨ ∃ l, l ∈ ls ∧ c ∈ l := by
  intro ls
  induction ls with
  | nil => intro c hc; cases hc
  | cons l₁ tail ih =>
    intro c hc
    cases tail with
    | nil =>
      exact Or.inr ⟨l₁, List.mem_cons_self l₁ [], hc⟩
    | cons l₂ ls' =>
      rw [joinLines] at hc
      rcases List.mem_append.mp hc with h | h
      · exact Or.inr ⟨l₁, List.mem_cons_self _ _, h⟩
      · rcases List.mem_cons.mp h with h | h
        · exact Or.inl h
        · rcases ih c h with h | ⟨l, hl, hcl⟩
          · exact Or.inl h
          · exact Or.inr ⟨l, List.mem_cons_of_mem _ hl, hcl⟩

/-- C3 (amended): the `%`-comment stripping is applied to the raw text before
any delimiter scanning, so no `%` character survives cleaning at all — a `%`
inside a brace- or quote-delimited value is removed (with the rest of its
line), never preserved. -/
theorem cleanInput_no_percent (doc : Str) : (cleanInput doc).contains '%' = false := by
  rw [Bool.eq_false_iff]
  intro hc
  have hm : '%' ∈ cleanInput doc := List.elem_iff.mp hc
  unfold cleanInput stripHashLines at hm
  rcases mem_joinLines _ _ hm with h | ⟨l, hl, hcl⟩
  · exact absurd h (by decide)
  · rcases List.mem_map.mp hl with ⟨l₀, hl₀, hfl⟩
    by_cases hh : lineStartsWithHash l₀
    · rw [if_pos hh] at hfl
      rw [← hfl] at hcl
      cases hcl
    · rw [if_neg hh] at hfl
      rw [← hfl] at hcl
      exact stripPercentAux_not_mem false doc
        (mem_splitLines _ l₀ hl₀ '%' hcl)

/-- C3 (counterexample): a `%` inside a brace-delimited field value is not
preserved — in `@article{k,title={100% x\n}}` the decoded `title` is `"100"`;
the `% x` part of the value is gone. -/
theorem percent_in_braces_not_preserved :
    parse (("@article\x7bk,title=\x7b100% x\n\x7d\x7d").toList) =
      [⟨("article").toList, ("k").toList,
        [(("title").toList, ("100").toList)]⟩] ∧
    (("100").toList.contains '%') = false := by
  constructor
  · decide
  · decide

/-! ### Non-empty type/key facts (claim C7) -/

theorem matchHeaderAfterAt_some {rest ty key after : Str}
    (h : matchHeaderAfterAt rest = some (ty, key, after)) :
    ty ≠ [] ∧ key ≠ [] := by
  unfold matchHeaderAfterAt at h
  dsimp only at h
  split at h
  · cases h
  · rename_i hty
    split at h
    · rename_i r3 heq
      split at h
      · cases h
      · rename_i hkey
        split at h
        · rename_i r5 heq2
          simp only [Option.some.injEq, Prod.mk.injEq] at h
          obtain ⟨h1, h2, -⟩ := h
          constructor
          · rw [← h1]
            intro hnil
            rw [hnil] at hty
            exact hty rfl
          · rw [← h2]
            intro hnil
            rw [hnil] at hkey
            exact hkey rfl
        · cases h
    · cases h

theorem scanHeadersAux_mem : ∀ (s : Str) (k : Nat) (h : Str × Str × Str),
    h ∈ scanHeadersAux k s → h.1 ≠ [] ∧ h.2.1 ≠ [] := by
  intro s
  induction s with
  | nil =>
    intro k h hm
    cases k <;> simp [scanHeadersAux] at hm
  | cons c rest ih =>
    intro k h hm
    cases k with
    | succ k => exact ih k h hm
    | zero =>
      rw [scanHeadersAux] at hm
      by_cases hc : c == '@'
      · rw [if_pos hc] at hm
        cases hmh : matchHeaderAfterAt rest with
        | none =>
          rw [hmh] at hm
          exact ih 0 h hm
        | some t =>
          obtain ⟨ty, key, after⟩ := t
          rw [hmh] at hm
          rcases List.mem_cons.mp hm with h1 | h1
          · subst h1
            exact matchHeaderAfterAt_some hmh
          · exact ih _ h h1
      · rw [if_neg hc] at hm
        exact ih 0 h hm

/-- C7 (amended): every Entry returned by `parse` has a non-empty type (and
its `fields` may be empty); the key, however, is only the trimmed text before
the first comma of the header and may be empty. -/
theorem entry_type_nonempty (doc : Str) (e : Entry) (he : e ∈ parse doc) :
    e.type.isEmpty = false := by
  rw [parse_eq] at he
  rcases List.mem_map.mp he with ⟨h, hh, hee⟩
  have hmem : h ∈ scanHeaders (cleanInput doc) := (List.mem_filter.mp hh).1
  have hne := (scanHeadersAux_mem _ 0 h hmem).1
  rw [← hee]
  show (lowerStr h.1).isEmpty = false
  cases h1 : h.1 with
  | nil => exact absurd h1 hne
  | cons c r => rfl

/-- Witness for C7 (amended) at a concrete document. -/
theorem entry_type_nonempty_witness :
    (⟨("misc").toList, ("k").toList, []⟩ : Entry) ∈
        parse (("@misc\x7bk,\x7d").toList) ∧
    (⟨("misc").toList, ("k").toList, []⟩ : Entry).type.isEmpty = false :=
  ⟨by decide, entry_type_nonempty (("@misc\x7bk,\x7d").toList) _ (by decide)⟩

/-- C7 (counterexample): the key of a returned Entry can be empty — a header
`@article{ ,` has raw key `" "`, which trims to the empty string, yet the
entry is returned. -/
theorem entry_with_empty_key :
    parse (("@article\x7b ,title=\x7bT\x7d\x7d").toList) =
      [⟨("article").toList, [], [(("title").toList, ("T").toList)]⟩] ∧
    (([] : Str).isEmpty = true) := by
  constructor
  · decide
  · rfl

/-! ### Field-object storage facts (claims C5 and C6) -/

theorem getField_setKey (m : List (Str × Str)) (k v n : Str) :
    getField (setKey m k v) n = if k = n then some v else getField m n := by
  induction m with
  | nil => simp [setKey, getField]
  | cons p rest ih =>
    obtain ⟨k', v'⟩ := p
    by_cases h1 : k' = k
    · subst h1
      by_cases h2 : k' = n
      · subst h2
        simp [setKey, getField]
      · simp [setKey, getField, h2]
    · by_cases h2 : k' = n
      · subst h2
        have hk : ¬ k = k' := fun hh => h1 hh.symm
        simp [setKey, getField, h1, hk]
      · simp [setKey, getField, h1, h2, ih]

/-- The accumulator function of `lastNonEmptyValue`. -/
def lastNEVStep (n : Str) (acc : Option Str) (m : Str × Str) : Option Str :=
  if (lowerStr m.1 == n) && !(m.2.isEmpty) then some (trimStr m.2) else acc

theorem lastNonEmptyValue_eq_foldl (ms : List (Str × Str)) (n : Str) :
    lastNonEmptyValue ms n = ms.foldl (lastNEVStep n) none := rfl

theorem getField_applyMatch (init : List (Str × Str)) (m : Str × Str) (n : Str) :
    getField (applyMatch init m) n = lastNEVStep n (getField init n) m := by
  simp only [applyMatch, lastNEVStep]
  by_cases hv : m.2.isEmpty <;> by_cases h : lowerStr m.1 = n <;>
    simp [hv, h, getField_setKey]

theorem getField_foldl_applyMatch (ms : List (Str × Str)) :
    ∀ (init : List (Str × Str)) (n : Str),
      getField (ms.foldl applyMatch init) n =
        ms.foldl (lastNEVStep n) (getField init n) := by
  induction ms with
  | nil => intro init n; rfl
  | cons m ms ih =>
    intro init n
    rw [List.foldl_cons, List.foldl_cons, ih, getField_applyMatch]

/-- C6 (amended): within one entry body, the stored value of a field name is
the trimmed value of the *last* assignment with that (lowercased) name whose
raw captured value is non-empty; assignments whose raw value is empty are
skipped entirely and never overwrite an earlier value. -/
theorem getField_last_nonempty_wins (body n : Str) :
    getField (parseFields body) n = lastNonEmptyValue (scanFields body) n := by
  rw [parseFields, lastNonEmptyValue_eq_foldl, getField_foldl_applyMatch]
  rfl

/-- C6 (counterexample): the body `year={2020}, year={}` contains two
assignments to `year`; the last occurrence has (raw and trimmed) value `""`,
but the stored value is `"2020"` — the last occurrence does *not* win when its
raw value is empty. -/
theorem last_empty_assignment_does_not_win :
    scanFields (("year=\x7b2020\x7d, year=\x7b\x7d").toList) =
      [(("year").toList, ("2020").toList), (("year").toList, [])] ∧
    getField (parseFields (("year=\x7b2020\x7d, year=\x7b\x7d").toList)) (("year").toList) =
      some (("2020").toList) ∧
    ("2020").toList ≠ ([] : Str) := by
  refine ⟨by decide, by decide, by decide⟩

theorem foldl_lastNEVStep_isSome (n : Str) :
    ∀ (ms : List (Str × Str)) (acc : Option Str), acc.isSome = true →
      (ms.foldl (lastNEVStep n) acc).isSome = true := by
  intro ms
  induction ms with
  | nil => intro acc h; exact h
  | cons m ms ih =>
    intro acc h
    rw [List.foldl_cons]
    apply ih
    rw [lastNEVStep]
    by_cases hc : ((lowerStr m.1 == n) && !(m.2.isEmpty)) = true
    · rw [if_pos hc]; rfl
    · rw [if_neg hc]; exact h

theorem foldl_lastNEVStep_mem (n : Str) :
    ∀ (ms : List (Str × Str)) (acc : Option Str) (m : Str × Str), m ∈ ms →
      ((lowerStr m.1 == n) && !(m.2.isEmpty)) = true →
      (ms.foldl (lastNEVStep n) acc).isSome = true := by
  intro ms
  induction ms with
  | nil => intro acc m hm; cases hm
  | cons m' ms ih =>
    intro acc m hm hc
    rcases List.mem_cons.mp hm with h | h
    · subst h
      rw [List.foldl_cons]
      apply foldl_lastNEVStep_isSome
      rw [lastNEVStep, if_pos hc]
      rfl
    · exact ih _ m h hc

theorem foldl_lastNEVStep_eq_some (n : Str) :
    ∀ (ms : List (Str × Str)) (acc : Option Str) (v : Str),
      ms.foldl (lastNEVStep n) acc = some v →
      (∃ m, m ∈ ms ∧ lowerStr m.1 = n ∧ trimStr m.2 = v ∧ m.2.isEmpty = false) ∨
        acc = some v := by
  intro ms
  induction ms with
  | nil => intro acc v h; exact Or.inr h
  | cons m ms ih =>
    intro acc v h
    rw [List.foldl_cons] at h
    rcases ih _ v h with ⟨m', hm', h1, h2, h3⟩ | hacc
    · exact Or.inl ⟨m', List.mem_cons_of_mem m hm', h1, h2, h3⟩
    · rw [lastNEVStep] at hacc
      by_cases hc : ((lowerStr m.1 == n) && !(m.2.isEmpty)) = true
      · rw [if_pos hc] at hacc
        rcases Bool.and_eq_true_iff.mp hc with ⟨hc1, hc2⟩
        exact Or.inl ⟨m, List.mem_cons_self m ms,
          beq_iff_eq.mp hc1, (Option.some.injEq _ _ ▸ hacc : trimStr m.2 = v),
          by rw [Bool.not_eq_true'] at hc2; exact hc2⟩
      · rw [if_neg hc] at hacc
        exact Or.inr hacc

/-- C5 (amended): every binding in the decoded fields mapping comes from an
assignment in the body: the stored name is the lowercased assignment name, the
stored value is the trimmed raw value, and only assignments whose *raw*
captured value is non-empty produce a binding.  (A raw value made only of
white space is therefore stored, as the empty string, contrary to the original
claim.) -/
theorem fields_lowercased_trimmed_nonempty (body : Str) :
    (∀ n v, getField (parseFields body) n = some v →
      ∃ m, m ∈ scanFields body ∧ lowerStr m.1 = n ∧ trimStr m.2 = v ∧
        m.2.isEmpty = false) ∧
    (∀ m, m ∈ scanFields body → m.2.isEmpty = false →
      (getField (parseFields body) (lowerStr m.1)).isSome = true) := by
  constructor
  · intro n v h
    rw [parseFields, getField_foldl_applyMatch] at h
    rcases foldl_lastNEVStep_eq_some n _ _ v h with hex | hacc
    · exact hex
    · cases hacc
  · intro m hm hne
    rw [parseFields, getField_foldl_applyMatch]
    apply foldl_lastNEVStep_mem _ _ _ m hm
    rw [hne]
    simp

/-- Witness for C5 (amended) at a concrete body. -/
theorem fields_lowercased_trimmed_nonempty_witness :
    getField (parseFields (("TiTle=\x7b x \x7d").toList)) (("title").toList) =
        some (("x").toList) ∧
    (∃ m, m ∈ scanFields (("TiTle=\x7b x \x7d").toList) ∧
      lowerStr m.1 = ("title").toList ∧ trimStr m.2 = ("x").toList ∧
      m.2.isEmpty = false) :=
  ⟨by decide,
    (fields_lowercased_trimmed_nonempty (("TiTle=\x7b x \x7d").toList)).1
      (("title").toList) (("x").toList) (by decide)⟩

/-- C5 (counterexample): in `title={ }` the delimited value trims to the empty
string, yet the key *is* added — bound to `""` — contradicting the claim that
no key is added at all. -/
theorem whitespace_value_stored_as_empty :
    getField (parseFields (("title=\x7b \x7d").toList)) (("title").toList) =
        some ([] : Str) ∧
    trimStr (' ' :: []) = [] := by
  refine ⟨by decide, by decide⟩

/-! ### Brace-delimited values with one nesting level (claim C4) -/

/-- The value grammar of the first regex alternative, as a checker:
`[^{}]*(\{[^{}]*\}[^{}]*)*` — a sequence of non-brace characters and balanced
one-level `{...}` groups.  `inGroup = true` is the state inside a group. -/
def okChunks : Bool → Str → Bool
  | false, [] => true
  | true, [] => false
  | false, c :: rest =>
    if c == '}' then false
    else if c == '{' then okChunks true rest
    else okChunks false rest
  | true, c :: rest =>
    if c == '}' then okChunks false rest
    else if c == '{' then false
    else okChunks true rest

/-- A value text with at most one level of internally nested balanced brace
pairs. -/
def isOneLevel (v : Str) : Bool := okChunks false v

theorem braceValue_of_okChunks :
    ∀ (v : Str) (b : Bool) (rest : Str), okChunks b v = true →
      braceValue b (v ++ '}' :: rest) = some (v, rest) := by
  intro v
  induction v with
  | nil =>
    intro b rest h
    cases b with
    | true => exact absurd h (by decide)
    | false => rfl
  | cons c v' ih =>
    intro b rest h
    cases b with
    | false =>
      rw [okChunks] at h
      by_cases h1 : c == '}'
      · rw [if_pos h1] at h; cases h
      · rw [if_neg h1] at h
        by_cases h2 : c == '{'
        · rw [if_pos h2] at h
          rw [List.cons_append, braceValue, if_neg h1, if_pos h2]
          simp only [Bool.false_eq_true, if_false]
          rw [ih true rest h]
          show some ('{' :: v', rest) = some (c :: v', rest)
          rw [beq_iff_eq.mp h2]
        · rw [if_neg h2] at h
          rw [List.cons_append, braceValue, if_neg h1, if_neg h2, ih false rest h]
    | true =>
      rw [okChunks] at h
      by_cases h1 : c == '}'
      · rw [if_pos h1] at h
        rw [List.cons_append, braceValue, if_pos h1]
        simp only [if_true]
        rw [ih false rest h]
        have : c = '}' := beq_iff_eq.mp h1
        rw [this]
      · rw [if_neg h1] at h
        by_cases h2 : c == '{'
        · rw [if_pos h2] at h; cases h
        · rw [if_neg h2] at h
          rw [List.cons_append, braceValue, if_neg h1, if_neg h2, ih true rest h]

/-- One `fieldRegex` attempt at `title={` followed by anything: reduces (by
computation) to the brace alternative with bare fallback. -/
theorem matchField_title_brace (w : Str) :
    matchField ('t' :: 'i' :: 't' :: 'l' :: 'e' :: '=' :: '{' :: w) =
      match braceValue false w with
      | some (v, r) => some (("title").toList, v, r)
      | none =>
        match bareValue ('{' :: w) with
        | some (v, r) => some (("title").toList, v, r)
        | none => none := rfl

/-- C4: for every brace-delimited field value containing at most one level of
internally nested balanced brace pairs, the decoder captures exactly the text
between the outermost brace pair — only the outermost pair is stripped and the
inner pairs are preserved verbatim. -/
theorem braceDelimited_one_level_nested (v rest : Str) (h : isOneLevel v = true) :
    matchField (('t' :: 'i' :: 't' :: 'l' :: 'e' :: '=' :: '{' :: []) ++ v ++ '}' :: rest) =
      some (("title").toList, v, rest) := by
  have hb := braceValue_of_okChunks v false rest h
  show matchField ('t' :: 'i' :: 't' :: 'l' :: 'e' :: '=' :: '{' :: (v ++ '}' :: rest)) = _
  rw [matchField_title_brace, hb]

/-- Witness for C4 at the round-trip value of the spec:
`{nested {inner} text}` decodes to `nested {inner} text`. -/
theorem braceDelimited_one_level_nested_witness :
    isOneLevel (("nested \x7binner\x7d text").toList) = true ∧
    matchField (('t' :: 'i' :: 't' :: 'l' :: 'e' :: '=' :: '{' :: []) ++
        (("nested \x7binner\x7d text").toList) ++ '}' :: []) =
      some (("title").toList, ("nested \x7binner\x7d text").toList, []) ∧
    getField (parseFields (("title=\x7bnested \x7binner\x7d text\x7d").toList))
        (("title").toList) = some (("nested \x7binner\x7d text").toList) :=
  ⟨by decide, braceDelimited_one_level_nested _ [] (by decide), by decide⟩

/-! ### Quote-delimited values (claim C8) -/

theorem quoteValue_append (v rest : Str) (h : '"' ∉ v) :
    quoteValue (v ++ '"' :: rest) = some (v, rest) := by
  induction v with
  | nil => rfl
  | cons c v' ih =>
    have hc : ¬ c == '"' := by
      intro hb
      exact h (by rw [beq_iff_eq.mp hb]; exact List.mem_cons_self '"' v')
    rw [List.cons_append, quoteValue, if_neg hc,
      ih (fun hm => h (List.mem_cons_of_mem c hm))]

/-- One `fieldRegex` attempt at `title="` followed by anything: reduces (by
computation) to the quote alternative with bare fallback. -/
theorem matchField_title_quote (w : Str) :
    matchField ('t' :: 'i' :: 't' :: 'l' :: 'e' :: '=' :: '"' :: w) =
      match quoteValue w with
      | some (v, r) => some (("title").toList, v, r)
      | none =>
        match bareValue ('"' :: w) with
        | some (v, r) => some (("title").toList, v, r)
        | none => none := rfl

/-- C8 (amended): the raw captured value of a double-quote-delimited field is
the text strictly between the opening quote and the next `"` character
(whether or not that quote is preceded by a backslash), with embedded newlines
preserved in the captured text; the *stored* value is this text trimmed of
leading and trailing white space. -/
theorem quoted_value_captures_to_next_quote (v rest : Str)
    (h : v.contains '"' = false) :
    matchField (('t' :: 'i' :: 't' :: 'l' :: 'e' :: '=' :: '"' :: []) ++ v ++ '"' :: rest) =
      some (("title").toList, v, rest) := by
  have hnm : '"' ∉ v := by
    intro hm
    have := List.elem_iff.mpr hm
    rw [show (List.contains v '"') = List.elem '"' v from rfl, this] at h
    cases h
  show matchField ('t' :: 'i' :: 't' :: 'l' :: 'e' :: '=' :: '"' :: (v ++ '"' :: rest)) = _
  rw [matchField_title_quote, quoteValue_append v rest hnm]

/-- Witness for C8 (amended): a quote-delimited value spanning two lines keeps
its line break. -/
theorem quoted_value_captures_to_next_quote_witness :
    (("multi\nline").toList.contains '"') = false ∧
    matchField (('t' :: 'i' :: 't' :: 'l' :: 'e' :: '=' :: '"' :: []) ++
        (("multi\nline").toList) ++ '"' :: []) =
      some (("title").toList, ("multi\nline").toList, []) :=
  ⟨by decide, quoted_value_captures_to_next_quote _ [] (by decide)⟩

/-- C8 (counterexample): in `title=" x \" y"` the capture stops at the *next*
quote even though it is backslash-escaped, and the stored value is trimmed:
the decoded value is `x \`, not the claimed exact text ` x \" y` up to the
next unescaped quote. -/
theorem quoted_value_trimmed_and_escape_ignored :
    parseFields (("title=\x22 x \x5c\x22 y\x22").toList) =
      [(("title").toList, ('x' :: ' ' :: '\x5c' :: []))] := by
  decide

/-! ### `formatAuthors` (claim C9) -/

/-- Does `pat` occur as a contiguous substring of `s`? -/
def occursIn (pat : Str) : Str → Bool
  | [] => pat.isEmpty
  | c :: rest => pat.isPrefixOf (c :: rest) || occursIn pat rest

/-- Hypothesis of C9 for a single name: the separator `" and "` must not occur
in `n ++ " and"` — equivalently, `n` neither contains `" and "` nor ends with
`" and"`, so that joining with `" and "` creates no accidental separator
occurrence. -/
abbrev goodName (n : Str) : Prop :=
  occursIn sepStr (n ++ (' ' :: 'a' :: 'n' :: 'd' :: [])) = false

/-- Joining a list of names with the literal separator `" and "`. -/
def joinAnd : List Str → Str
  | [] => []
  | [n] => n
  | n :: m :: ns => n ++ sepStr ++ joinAnd (m :: ns)

theorem bfalse_ne_true {b : Bool} (h : b = false) : ¬ (b = true) := by
  rw [h]
  exact fun hh => nomatch hh

theorem occursIn_append_right (pat s t : Str) (h : occursIn pat s = true) :
    occursIn pat (s ++ t) = true := by
  induction s with
  | nil =>
    have : pat = [] := List.isEmpty_iff.mp h
    subst this
    cases t <;> rfl
  | cons c s' ih =>
    rw [occursIn] at h
    rw [List.cons_append, occursIn]
    rcases Bool.or_eq_true_iff.mp h with hpre | hocc
    · have : pat <+: (c :: s') ++ t :=
        ( List.isPrefixOf_iff_prefix.mp hpre).trans (List.prefix_append _ t)
      rw [List.cons_append] at this
      rw [ List.isPrefixOf_iff_prefix.mpr this]
      rfl
    · rw [ih hocc, Bool.or_true]

theorem prefix_occursIn (pat s : Str) (h : pat.isPrefixOf s = true) :
    occursIn pat s = true := by
  cases s with
  | nil =>
    cases pat with
    | nil => rfl
    | cons p ps => simp [List.isPrefixOf] at h
  | cons c rest => rw [occursIn, h]; rfl

theorem occursIn_cons_false {pat : Str} {c : Char} {s : Str}
    (h : occursIn pat (c :: s) = false) : occursIn pat s = false := by
  rw [occursIn] at h
  exact (Bool.or_eq_false_iff.mp h).2

theorem goodName_not_contains {n : Str} (hg : goodName n) :
    occursIn sepStr n = false := by
  cases hocc : occursIn sepStr n with
  | false => rfl
  | true =>
    have := occursIn_append_right sepStr n (' ' :: 'a' :: 'n' :: 'd' :: []) hocc
    rw [hg] at this
    exact absurd this (by decide)

/-- Out of a good, non-empty name, the separator is not a prefix of
`n ++ " and " ++ t`: the first separator occurrence really is the one at the
end of `n`. -/
theorem sep_isPrefixOf_false (n : Str) (hne : n ≠ []) (hg : goodName n)
    (t : Str) : sepStr.isPrefixOf (n ++ sepStr ++ t) = false := by
  rw [Bool.eq_false_iff]
  intro hp
  obtain ⟨u, hu⟩ := List.isPrefixOf_iff_prefix.mp hp
  rcases n with _ | ⟨a, _ | ⟨b, _ | ⟨c, _ | ⟨d, _ | ⟨e, tl⟩⟩⟩⟩⟩
  · exact hne rfl
  · simp only [sepStr, List.cons_append, List.nil_append] at hu
    injection hu with h1 hu
    injection hu with h2 hu
    exact absurd h2 (by decide)
  · simp only [sepStr, List.cons_append, List.nil_append] at hu
    injection hu with h1 hu
    injection hu with h2 hu
    injection hu with h3 hu
    exact absurd h3 (by decide)
  · simp only [sepStr, List.cons_append, List.nil_append] at hu
    injection hu with h1 hu
    injection hu with h2 hu
    injection hu with h3 hu
    injection hu with h4 hu
    exact absurd h4 (by decide)
  · simp only [sepStr, List.cons_append, List.nil_append] at hu
    injection hu with h1 hu
    injection hu with h2 hu
    injection hu with h3 hu
    injection hu with h4 hu
    subst h1
    subst h2
    subst h3
    subst h4
    have hg' : occursIn sepStr
        ((' ' :: 'a' :: 'n' :: 'd' :: []) ++ (' ' :: 'a' :: 'n' :: 'd' :: [])) = false := hg
    exact absurd hg' (by decide)
  · simp only [sepStr, List.cons_append, List.nil_append] at hu
    injection hu with h1 hu
    injection hu with h2 hu
    injection hu with h3 hu
    injection hu with h4 hu
    injection hu with h5 hu
    subst h1
    subst h2
    subst h3
    subst h4
    subst h5
    have hocc : occursIn sepStr (' ' :: 'a' :: 'n' :: 'd' :: ' ' :: tl) = true :=
      prefix_occursIn sepStr _ ( List.isPrefixOf_iff_prefix.mpr ⟨tl, rfl⟩)
    have htot := occursIn_append_right sepStr _ (' ' :: 'a' :: 'n' :: 'd' :: []) hocc
    have hg' : occursIn sepStr
        ((' ' :: 'a' :: 'n' :: 'd' :: ' ' :: tl) ++ (' ' :: 'a' :: 'n' :: 'd' :: [])) = false := hg
    rw [hg'] at htot
    exact absurd htot (by decide)

theorem splitAndAux_cons (c : Char) (rest : Str) :
    splitAndAux 0 (c :: rest) =
      if sepStr.isPrefixOf (c :: rest) then [] :: splitAndAux 4 rest
      else
        match splitAndAux 0 rest with
        | [] => [[c]]
        | p :: ps => (c :: p) :: ps := rfl

theorem splitAnd_append (n t : Str) (hg : goodName n) :
    splitAndAux 0 (n ++ sepStr ++ t) = n :: splitAndAux 0 t := by
  induction n with
  | nil =>
    show splitAndAux 0 (' ' :: 'a' :: 'n' :: 'd' :: ' ' :: t) = [] :: splitAndAux 0 t
    rw [splitAndAux_cons,
      if_pos (show sepStr.isPrefixOf (' ' :: 'a' :: 'n' :: 'd' :: ' ' :: t) = true from
        List.isPrefixOf_iff_prefix.mpr ⟨t, rfl⟩)]
    rfl
  | cons c n' ih =>
    have hg' : goodName n' := occursIn_cons_false hg
    have hnp : sepStr.isPrefixOf (c :: (n' ++ sepStr ++ t)) = false :=
      sep_isPrefixOf_false (c :: n') (fun hh => nomatch hh) hg t
    show splitAndAux 0 (c :: (n' ++ sepStr ++ t)) = (c :: n') :: splitAndAux 0 t
    rw [splitAndAux_cons, if_neg (bfalse_ne_true hnp), ih hg']

theorem splitAnd_single (n : Str) (h : occursIn sepStr n = false) :
    splitAndAux 0 n = [n] := by
  induction n with
  | nil => rfl
  | cons c n' ih =>
    rw [occursIn] at h
    obtain ⟨hpre, hrest⟩ := Bool.or_eq_false_iff.mp h
    rw [splitAndAux_cons, if_neg (bfalse_ne_true hpre), ih hrest]

theorem splitAnd_joinAnd : ∀ (names : List Str), names ≠ [] →
    (∀ n ∈ names, goodName n) → splitAnd (joinAnd names) = names := by
  intro names
  induction names with
  | nil => intro h; exact absurd rfl h
  | cons n tail ih =>
    intro _ h2
    cases tail with
    | nil =>
      exact splitAnd_single n (goodName_not_contains (h2 n (List.mem_cons_self n [])))
    | cons m ns =>
      show splitAndAux 0 (n ++ sepStr ++ joinAnd (m :: ns)) = n :: (m :: ns)
      rw [splitAnd_append n _ (h2 n (List.mem_cons_self n _))]
      have := ih (fun hh => nomatch hh)
        (fun x hx => h2 x (List.mem_cons_of_mem n hx))
      rw [show splitAndAux 0 (joinAnd (m :: ns)) = splitAnd (joinAnd (m :: ns)) from rfl,
        this]

theorem append_sep_isEmpty (a x : Str) : (a ++ sepStr ++ x).isEmpty = false := by
  cases a <;> rfl

/-- C9: for every author field built by joining names with the literal
separator `" and "` (no name containing or ending in the separator):
one name gives that name trimmed, two names give `A and B`, three or more give
`A, B, et al.` naming only the first two. -/
theorem formatAuthors_rule (names : List Str) (h1 : names ≠ [])
    (h2 : ∀ n ∈ names, goodName n) :
    (∀ a, names = [a] → formatAuthors (joinAnd names) = trimStr a) ∧
    (∀ a b, names = [a, b] →
      formatAuthors (joinAnd names) = trimStr a ++ sepStr ++ trimStr b) ∧
    (∀ a b c rest, names = a :: b :: c :: rest →
      formatAuthors (joinAnd names) =
        trimStr a ++ (',' :: ' ' :: []) ++ trimStr b ++
          (',' :: ' ' :: 'e' :: 't' :: ' ' :: 'a' :: 'l' :: '.' :: [])) := by
  refine ⟨?_, ?_, ?_⟩
  · rintro a rfl
    have hs : splitAnd (joinAnd [a]) = [a] := splitAnd_joinAnd [a] h1 h2
    cases a with
    | nil => rfl
    | cons c a' =>
      have hs' : splitAnd (c :: a') = [c :: a'] := hs
      show formatAuthors (c :: a') = trimStr (c :: a')
      rw [formatAuthors, if_neg (fun hh => nomatch hh), hs']
      rfl
  · rintro a b rfl
    have hs : splitAnd (joinAnd [a, b]) = [a, b] := splitAnd_joinAnd _ h1 h2
    have he : (joinAnd [a, b]).isEmpty = false := append_sep_isEmpty a b
    rw [formatAuthors, if_neg (bfalse_ne_true he), hs]
    rfl
  · rintro a b c rest rfl
    have hs : splitAnd (joinAnd (a :: b :: c :: rest)) = a :: b :: c :: rest :=
      splitAnd_joinAnd _ h1 h2
    have he : (joinAnd (a :: b :: c :: rest)).isEmpty = false :=
      append_sep_isEmpty a (joinAnd (b :: c :: rest))
    rw [formatAuthors, if_neg (bfalse_ne_true he), hs]
    rfl

/-- Witness for C9 on the three spec examples. -/
theorem formatAuthors_rule_witness :
    formatAuthors (joinAnd [("A").toList, ("B").toList, ("C").toList]) =
        ("A, B, et al.").toList ∧
    formatAuthors (joinAnd [("A").toList, ("B").toList]) = ("A and B").toList ∧
    formatAuthors (joinAnd [("A").toList]) = ("A").toList ∧
    joinAnd [("A").toList, ("B").toList, ("C").toList] = ("A and B and C").toList :=
  ⟨((formatAuthors_rule [("A").toList, ("B").toList, ("C").toList]
        (by decide) (by decide)).2.2 _ _ _ [] rfl).trans (by decide),
   ((formatAuthors_rule [("A").toList, ("B").toList]
        (by decide) (by decide)).2.1 _ _ rfl).trans (by decide),
   ((formatAuthors_rule [("A").toList]
        (by decide) (by decide)).1 _ rfl).trans (by decide),
   by decide⟩

/-! ### Sanity checks against the worked examples of spec §8 -/

theorem sanity_two_entry_document :
    parse (("@article\x7bk1, title=\x7bT\x7d, year=\x7b2020\x7d\x7d\n@misc\x7bk2, year=2019\x7d").toList) =
      [⟨("article").toList, ("k1").toList,
         [(("title").toList, ("T").toList), (("year").toList, ("2020").toList)]⟩,
       ⟨("misc").toList, ("k2").toList, [(("year").toList, ("2019").toList)]⟩] := by
  decide

theorem sanity_formatAuthors_three :
    formatAuthors (("A and B and C").toList) = ("A, B, et al.").toList := by decide

theorem sanity_comment_line_ignored :
    parse (("% not an entry\n@misc\x7bk,year=2001\x7d").toList) =
      [⟨("misc").toList, ("k").toList, [(("year").toList, ("2001").toList)]⟩] := by
  decide

end Bibtex
